import Mathlib

/-!
Verification of the GitTidy output-parsing and command-composition layer
(`src/gittidy/git.py`) against its specification.

Strings are modelled as lists of characters (`Str`).  Python string
operations used by the source (`strip`, `split`, `splitlines`, `int`,
`startswith`, `removeprefix`, `removesuffix`) are modelled character by
character below.  Fallible Python code is modelled with `Except GitError`;
the constructors of `GitError` mirror the exception kinds that can escape
the source functions (exception message payloads are elided).
-/

abbrev Str := List Char

/-- Whitespace characters recognised by Python `str.strip` / `str.split`. -/
def isPySpace (c : Char) : Bool :=
  c = ' ' || c = '\t' || c = '\n' || c = '\r' || c = '\x0b' || c = '\x0c'

/-- Python `str.strip()`: drop leading and trailing whitespace. -/
def pyStrip (s : Str) : Str :=
  ((s.dropWhile isPySpace).reverse.dropWhile isPySpace).reverse

/-- Python `str.split(sep)` for a single-character separator: keeps empty
pieces, always returns at least one piece. -/
def splitOnChar (sep : Char) : Str → List Str
  | [] => [[]]
  | c :: rest =>
    let r := splitOnChar sep rest
    if c = sep then [] :: r
    else
      match r with
      | [] => [[c]]
      | h :: t => (c :: h) :: t

/-- Python `str.splitlines()` for `\n`-separated text (the only line
separator occurring in the tool output consumed by the source): like
`split("\n")` but yielding `[]` on the empty string and dropping the
final empty piece produced by a trailing newline. -/
def pySplitlines (s : Str) : List Str :=
  if s = [] then []
  else
    let parts := splitOnChar '\n' s
    if s.getLast? = some '\n' then parts.dropLast else parts

/-- Helper for `pySplitWords`: accumulates the current word (reversed). -/
def pySplitWordsAux : Str → Str → List Str
  | [], acc => if acc = [] then [] else [acc.reverse]
  | c :: rest, acc =>
    if isPySpace c then
      if acc = [] then pySplitWordsAux rest []
      else acc.reverse :: pySplitWordsAux rest []
    else pySplitWordsAux rest (c :: acc)

/-- Python `str.split()` with no argument: split on runs of whitespace,
discarding empty pieces. -/
def pySplitWords (s : Str) : List Str := pySplitWordsAux s []

/-- Python `str.removeprefix`. -/
def pyRemovePre (pre s : Str) : Str :=
  if pre.isPrefixOf s then s.drop pre.length else s

/-- Python `str.removesuffix`. -/
def pyRemoveSuf (suf s : Str) : Str :=
  if suf.isSuffixOf s then s.take (s.length - suf.length) else s

/-- Python `str.startswith`. -/
def pyStarts (pre s : Str) : Bool := pre.isPrefixOf s

/-- Split a list at the first occurrence of the pattern `pat`, returning
the part before it and the part after it (pattern removed).  This is the
semantics of a lazy regex group `(.*?)` followed by the literal `pat`
(with `re.DOTALL`): the group captures up to the first occurrence. -/
def splitOnceSub (pat : Str) : Str → Option (Str × Str)
  | [] => if pat.isEmpty then some ([], []) else none
  | c :: rest =>
    if pat.isPrefixOf (c :: rest) then some ([], (c :: rest).drop pat.length)
    else
      match splitOnceSub pat rest with
      | some (a, b) => some (c :: a, b)
      | none => none

/-- Digit-or-underscore tail of a Python integer literal: after the first
digit, underscores must be followed by a digit. -/
def pyIntTail : Str → Bool
  | [] => true
  | '_' :: rest =>
    match rest with
    | d :: r => d.isDigit && pyIntTail r
    | [] => false
  | c :: rest => c.isDigit && pyIntTail rest

/-- Does `s` consist of digits (with Python-style underscore grouping)? -/
def pyIntBody : Str → Bool
  | [] => false
  | c :: rest => c.isDigit && pyIntTail rest

/-- Numeric value of a digit string, ignoring underscores. -/
def pyDigitsVal (s : Str) : Nat :=
  s.foldl (fun acc c => if c = '_' then acc else acc * 10 + (c.toNat - 48)) 0

/-- Python `int(str)`: strips whitespace, allows an optional sign, then
digits with underscore grouping; `none` models `ValueError`. -/
def pyInt (s : Str) : Option Int :=
  match pyStrip s with
  | '+' :: r => if pyIntBody r then some (pyDigitsVal r : Int) else none
  | '-' :: r => if pyIntBody r then some (-(pyDigitsVal r : Int)) else none
  | t => if pyIntBody t then some (pyDigitsVal t : Int) else none

/-- Association-list lookup with decidable key equality (models Python
`dict` membership / indexing on an insertion-ordered dict). -/
def assocFind {α : Type} (k : Str) : List (Str × α) → Option α
  | [] => none
  | (k2, v) :: rest => if k2 = k then some v else assocFind k rest

/-- Exception kinds that can escape the modelled source functions.
Message payloads are elided. -/
inductive GitError : Type
  /-- `gittidy.exception.GitTidyOperationError` -/
  | operationError : GitError
  /-- `gittidy.exception.GitTidyInputError` -/
  | inputError : GitError
  /-- Python built-in `ValueError` (failed `int()` or tuple unpacking) -/
  | valueError : GitError
  /-- Python built-in `KeyError` (missing dict key) -/
  | keyError : GitError
  /-- Python built-in `IndexError` (list index out of range) -/
  | indexError : GitError
  /-- An execution failure raised by the shell-runner collaborator -/
  | execError : GitError
deriving DecidableEq, Repr

deriving instance DecidableEq for Except

/-! ## Change-set decoder (`Git.changed_files`, git.py lines 194-258) -/

/-- The `key_def` mapping of `changed_files` (git.py lines 233-242). -/
def key_def : List (Str × Str) :=
  [("A".toList, "added".toList),
   ("D".toList, "deleted".toList),
   ("M".toList, "modified".toList),
   ("U".toList, "unmerged".toList),
   ("X".toList, "unknown".toList),
   ("B".toList, "broken".toList),
   ("C".toList, "copied".toList),
   ("R".toList, "renamed".toList)]

/-- An insertion-ordered `dict[str, list[str]]`. -/
abbrev ChangeMap := List (Str × List Str)

/-- Python `out.setdefault(k, []).extend(vs)` on an insertion-ordered dict
modelled as an association list. -/
def setdefaultExtend (m : ChangeMap) (k : Str) (vs : List Str) : ChangeMap :=
  match m with
  | [] => [(k, vs)]
  | (k2, vs2) :: rest =>
    if k2 = k then (k2, vs2 ++ vs) :: rest else (k2, vs2) :: setdefaultExtend rest k vs

/-- Python `out.setdefault(k, []).append(v)`. -/
def setdefaultAppend (m : ChangeMap) (k : Str) (v : Str) : ChangeMap :=
  setdefaultExtend m k [v]

/-- One iteration of the `for change in changes` loop of `changed_files`
(git.py lines 245-257).  Here `key, *paths = change.split("\t")`; a key
present in `key_def` extends the flat category; otherwise the key is
split into first letter and similarity score (`int(key[1:])`), the
`logger.error` call for letters outside C/R is a non-raising log
(modelled as a no-op, cf. spec section 9), and indexing `key_def[key]`
with an unmapped letter raises `KeyError`.  Python raises `IndexError`
for `key[0]` on an empty key, as for `paths[0]` / `paths[1]` when too
few paths are present. -/
def processChange (out : ChangeMap) (change : Str) : Except GitError ChangeMap :=
  match splitOnChar '\t' change with
  | [] => Except.error GitError.valueError
  | key :: paths =>
    match assocFind key key_def with
    | some cat => Except.ok (setdefaultExtend out cat paths)
    | none =>
      match key with
      | [] => Except.error GitError.indexError
      | k0 :: krest =>
        match pyInt krest with
        | none => Except.error GitError.valueError
        | some similarity =>
          match assocFind [k0] key_def with
          | none => Except.error GitError.keyError
          | some outKey0 =>
            let outKey := if similarity ≠ 100 then outKey0 ++ "_modified".toList else outKey0
            match paths with
            | p0 :: p1 :: _ =>
              Except.ok
                (setdefaultAppend (setdefaultAppend out (outKey ++ "_from".toList) p0)
                  (outKey ++ "_to".toList) p1)
            | _ => Except.error GitError.indexError

/-- The `for change in changes` loop of `changed_files`: an exception in
one iteration aborts the loop and propagates. -/
def changed_files_fold (out : ChangeMap) : List Str → Except GitError ChangeMap
  | [] => Except.ok out
  | change :: rest =>
    match processChange out change with
    | Except.ok out2 => changed_files_fold out2 rest
    | Except.error e => Except.error e

/-- The decoder of `changed_files`: fold `processChange` over the
`splitlines()` of the raw `git diff --name-status` output, starting from
the empty dict `out = {}`. -/
def changed_files (output : Str) : Except GitError ChangeMap :=
  changed_files_fold [] (pySplitlines output)

/-! ### Claim C2: unrecognized status letters -/

/-- The status field of a change line: the text before the first tab. -/
def statusKey (change : Str) : Str := (splitOnChar '\t' change).headD []

/-- The first letters that `key_def` maps. -/
def mappedLetters : List Char := ['A', 'D', 'M', 'U', 'X', 'B', 'C', 'R']

/-- Which unhandled Python error an unrecognized status produces:
`IndexError` for an empty status (`key[0]`), `KeyError` when the score
parses but the letter is unmapped (`key_def[key]`), `ValueError` when
the score does not parse (`int(key[1:])`). -/
def statusErr (change : Str) : GitError :=
  match statusKey change with
  | [] => GitError.indexError
  | _ :: krest =>
    match pyInt krest with
    | some _ => GitError.keyError
    | none => GitError.valueError

/-! ### Claim C3: copy/rename path pairs and index alignment -/

/-- Read access `out.get(k, [])` used to state properties of the result. -/
def getList (m : ChangeMap) (k : Str) : List Str := (assocFind k m).getD []

/-- Specification of the pair contributed by one change line to the paired
category `base` (from the claim: a `C`/`R` status letter followed by an
integer similarity score and two tab-separated paths contributes its
path pair to `copied`/`renamed` when the score is 100 and to the
`_modified` variant otherwise). -/
def crPairOne (base : Str) (change : Str) : Option (Str × Str) :=
  match splitOnChar '\t' change with
  | key :: p0 :: p1 :: _ =>
    match assocFind key key_def with
    | some _ => none
    | none =>
      match key with
      | [] => none
      | k0 :: krest =>
        match pyInt krest with
        | none => none
        | some sim =>
          match assocFind [k0] key_def with
          | none => none
          | some b0 =>
            if (if sim ≠ 100 then b0 ++ "_modified".toList else b0) = base then some (p0, p1)
            else none
  | _ => none

/-- All pairs contributed to paired category `base` by a list of change
lines, in input order. -/
def crPairs (base : Str) (lines : List Str) : List (Str × Str) :=
  lines.filterMap (crPairOne base)

/-! ## Branch-list decoder (`Git.get_all_branch_names`, git.py lines 481-497) -/

/-- One iteration of the branch loop (git.py lines 487-494): strip the
line, skip it when empty, put a `*`-prefixed line into the current-branch
list (marker removed, stripped again), any other line into the other
list. -/
def branchStep (acc : List Str × List Str) (branch : Str) : List Str × List Str :=
  let b := pyStrip branch
  if b = [] then acc
  else if pyStarts "*".toList b then (acc.1 ++ [pyStrip (pyRemovePre "*".toList b)], acc.2)
  else (acc.1, acc.2 ++ [b])

/-- Model of `Git.get_all_branch_names`: split the `git branch` output on
newlines, classify each line, raise `OperationError` when more than one
line is marked current, and return `branch_current[0]` (an unhandled
`IndexError` when no line is marked) together with the other branches. -/
def get_all_branch_names (output : Str) : Except GitError (Str × List Str) :=
  let p := (splitOnChar '\n' output).foldl branchStep ([], [])
  if p.1.length > 1 then Except.error GitError.operationError
  else
    match p.1 with
    | c :: _ => Except.ok (c, p.2)
    | [] => Except.error GitError.indexError

/-- The current-branch entries contributed by a list of raw lines, in
input order (stripped, marker removed, stripped again). -/
def currentEntries (lines : List Str) : List Str :=
  lines.filterMap (fun branch =>
    let b := pyStrip branch
    if b = [] then none
    else if pyStarts "*".toList b then some (pyStrip (pyRemovePre "*".toList b)) else none)

/-- The non-current branch entries contributed by a list of raw lines, in
input order (stripped). -/
def otherEntries (lines : List Str) : List Str :=
  lines.filterMap (fun branch =>
    let b := pyStrip branch
    if b = [] then none
    else if pyStarts "*".toList b then none else some b)

/-! ## Remote-table decoder (`Git.get_remotes`, git.py lines 550-583) -/

/-- Nested insertion-ordered dict `dict[str, dict[str, str]]`. -/
abbrev RemoteMap := List (Str × List (Str × Str))

/-- Model of `purpose_raw.removeprefix("(").removesuffix(")")` (git.py
line 576). -/
def purposeOf (purpose_raw : Str) : Str :=
  pyRemoveSuf ")".toList (pyRemovePre "(".toList purpose_raw)

/-- Model of `remotes.setdefault(remote_name, {})[purpose] = url`: append
the pair to the existing entry for the remote, or append a fresh
entry. -/
def insertRemote (m : RemoteMap) (n p u : Str) : RemoteMap :=
  match m with
  | [] => [(n, [(p, u)])]
  | (n2, d) :: rest =>
    if n2 = n then (n2, d ++ [(p, u)]) :: rest else (n2, d) :: insertRemote rest n p u

/-- Membership test `purpose in remotes.setdefault(remote_name, {})`. -/
def memPair (m : RemoteMap) (n p : Str) : Bool :=
  match assocFind n m with
  | none => false
  | some d => (assocFind p d).isSome

/-- One iteration of the `for remote in out.splitlines()` loop (git.py
lines 574-582): whitespace-split into exactly three fields (`ValueError`
otherwise), strip the parentheses from the purpose, raise
`OperationError` on a duplicate `(remote, purpose)` pair, else store the
URL. -/
def processRemote (remotes : RemoteMap) (line : Str) : Except GitError RemoteMap :=
  match pySplitWords line with
  | [remote_name, url, purpose_raw] =>
    let purpose := purposeOf purpose_raw
    if memPair remotes remote_name purpose then Except.error GitError.operationError
    else Except.ok (insertRemote remotes remote_name purpose url)
  | _ => Except.error GitError.valueError

/-- The remote-table loop with exception propagation. -/
def get_remotes_fold (remotes : RemoteMap) : List Str → Except GitError RemoteMap
  | [] => Except.ok remotes
  | l :: ls =>
    match processRemote remotes l with
    | Except.ok r2 => get_remotes_fold r2 ls
    | Except.error e => Except.error e

/-- Model of `Git.get_remotes`: decode the raw `git remote -v` output. -/
def get_remotes (output : Str) : Except GitError RemoteMap :=
  get_remotes_fold [] (pySplitlines output)

/-- The `(remote name, purpose)` key of a well-formed remote line. -/
def remoteKey (line : Str) : Option (Str × Str) :=
  match pySplitWords line with
  | [n, _, pr] => some (n, purposeOf pr)
  | _ => none

/-! ## `Git.set_user` (git.py lines 315-336) -/

/-- An argument vector passed to the tool (without the leading `git`). -/
abbrev Cmd := List Str

/-- Model of `cmd = ["config"]; if scope: cmd.append(f"--{scope}")`
(git.py lines 326-328).  Python `if scope:` is false for both `None` and
the empty string. -/
def configBase (scope : Option Str) : Cmd :=
  match scope with
  | some s => if s = [] then ["config".toList] else ["config".toList, "--".toList ++ s]
  | none => ["config".toList]

/-- The config commands issued by `Git.set_user` (git.py lines 331-335):
`for key, val in [("name", username), ("email", email)]`, a `None` value
unsets `{user_type}.{key}`, a non-empty value writes it, an empty string
issues nothing.  (The preceding type check cannot fail in this typed
model.) -/
def set_user_cmds (username email : Option Str) (user_type : Str) (scope : Option Str) :
    List Cmd :=
  let cmd := configBase scope
  [(("name".toList : Str), username), (("email".toList : Str), email)].flatMap
    (fun kv =>
      match kv.2 with
      | none => [cmd ++ ["--unset".toList, user_type ++ ".".toList ++ kv.1]]
      | some v => if v = [] then [] else [cmd ++ [user_type ++ ".".toList ++ kv.1, v]])

/-! ## `Git.commit` (git.py lines 122-159) -/

/-- The environment a commit call observes: whether the staged-changes
probe (`git diff --quiet --cached`, exit code not 0) reports changes,
and the output of `git rev-parse HEAD~0`. -/
structure CommitEnv where
  staged_changes : Bool
  head_hash : Str

/-- The `stage` parameter of `Git.commit`. -/
inductive Stage : Type
  | all : Stage
  | tracked : Stage
  | none : Stage
deriving DecidableEq, Repr

/-- The argument vector built for the commit invocation (git.py lines
143-152): `--amend` (with `--no-edit` when amending without a message),
`--allow-empty`, then one `-m line` pair per non-empty message line. -/
def commit_cmd (message : Str) (amend allow_empty : Bool) : Cmd :=
  ["commit".toList]
    ++ (if amend then
          "--amend".toList :: (if message = [] then ["--no-edit".toList] else [])
        else [])
    ++ (if allow_empty then ["--allow-empty".toList] else [])
    ++ (pySplitlines message).flatMap (fun l => if l = [] then [] else ["-m".toList, l])

/-- Model of `Git.commit`: raises `InputError` for a new commit without a
message; stages (`add -A` / `add -u`) unless `stage="none"`; probes for
staged changes only when `allow_empty` is not set (short-circuit of
`allow_empty or self.has_changes("staged")`); issues the commit command
and resolves the new hash only when `allow_empty` is set or something is
staged, else returns no hash.  The result is the returned hash together
with the trace of issued git commands, in order.  (The identity-scope
config commands of the credential wrapper are modelled separately and
not traced here; with persistent roles the wrapper issues none.) -/
def commit (env : CommitEnv) (message : Str) (stage : Stage) (amend allow_empty : Bool) :
    Except GitError (Option Str × List Cmd) :=
  if amend = false ∧ message = [] then Except.error GitError.inputError
  else
    let addCmds : List Cmd :=
      match stage with
      | Stage.all => [["add".toList, "-A".toList]]
      | Stage.tracked => [["add".toList, "-u".toList]]
      | Stage.none => []
    let probeCmds : List Cmd :=
      if allow_empty then [] else [["diff".toList, "--quiet".toList, "--cached".toList]]
    if allow_empty || env.staged_changes then
      Except.ok (some env.head_hash,
        addCmds ++ probeCmds
          ++ [commit_cmd message amend allow_empty]
          ++ [["rev-parse".toList, "HEAD~0".toList]])
    else Except.ok (none, addCmds ++ probeCmds)

/-- Did the trace invoke the underlying commit command? -/
def commitIssued (tr : List Cmd) : Bool :=
  tr.any (fun c => c.head? = some "commit".toList)

/-! ## Repository-name extraction (`Git.get_remote_repo_name`, git.py
lines 585-627) -/

/-- The regex class `\w`, for the ASCII URLs this pattern targets. -/
def isWordChar (c : Char) : Bool := c.isAlphanum || c = '_'

/-- The character class `[\w\-]` (owner part). -/
def isOwnerChar (c : Char) : Bool := isWordChar c || c = '-'

/-- The character class `[\w\-.]` (repo part). -/
def isRepoChar (c : Char) : Bool := isWordChar c || c = '-' || c = '.'

/-- One attempt of the pattern
`github\.com[/:]([\w\-]+)/([\w\-.]+?)(?:\.git)?$` at a starting position
(`s` is the suffix of the URL beginning there).  Group 1 is greedy but
its characters can never include the following `/`, so backtracking
cannot produce another split; group 2 is lazy with an end anchor, so one
trailing `.git` is stripped exactly when a non-empty group remains. -/
def matchRepoAt (s : Str) : Option (Str × Str) :=
  if "github.com".toList.isPrefixOf s then
    match s.drop 10 with
    | [] => none
    | sep :: rest =>
      if sep = '/' || sep = ':' then
        let owner := rest.takeWhile isOwnerChar
        let rest2 := rest.drop owner.length
        if owner = [] then none
        else
          match rest2 with
          | '/' :: tail =>
            if tail ≠ [] ∧ tail.all isRepoChar then
              if ".git".toList.isSuffixOf tail ∧ tail.length > 4 then
                some (owner, tail.take (tail.length - 4))
              else some (owner, tail)
            else none
          | _ => none
      else none
  else none

/-- Model of `extract_repo_name_from_url` (git.py lines 593-601):
`re.search` takes the leftmost position at which the anchored pattern
matches; `None` when the URL does not match. -/
def extract_repo_name_from_url : Str → Option (Str × Str)
  | [] => none
  | c :: rest =>
    match matchRepoAt (c :: rest) with
    | some r => some r
    | none => extract_repo_name_from_url rest

/-- The inner fallback loop over a remote entry (git.py lines 622-626):
every purpose other than the requested one, in table order. -/
def purposeLoop (remote_purpose : Str) : List (Str × Str) → Option (Str × Str)
  | [] => none
  | (p, u) :: rest =>
    if p ≠ remote_purpose then
      match extract_repo_name_from_url u with
      | some r => some r
      | none => purposeLoop remote_purpose rest
    else purposeLoop remote_purpose rest

/-- The fallback-by-purpose loop (git.py lines 611-615): every purpose of
the requested remote, in table order (including the requested one
again). -/
def allPurposeLoop : List (Str × Str) → Option (Str × Str)
  | [] => none
  | (_, u) :: rest =>
    match extract_repo_name_from_url u with
    | some r => some r
    | none => allPurposeLoop rest

/-- The fallback-by-name loop (git.py lines 616-626): for each remote in
table order, first the requested purpose when present, then every other
purpose of that same remote. -/
def nameLoop (remote_purpose : Str) : RemoteMap → Option (Str × Str)
  | [] => none
  | (_, data) :: rest =>
    match
      (match assocFind remote_purpose data with
       | some url => extract_repo_name_from_url url
       | none => none) with
    | some r => some r
    | none =>
      match purposeLoop remote_purpose data with
      | some r => some r
      | none => nameLoop remote_purpose rest

/-- Model of `Git.get_remote_repo_name` over an already-decoded remote
table. -/
def get_remote_repo_name (remotes : RemoteMap) (remote_name remote_purpose : Str)
    (fallback_name fallback_purpose : Bool) : Option (Str × Str) :=
  if remotes = [] then none
  else
    match
      (match assocFind remote_name remotes with
       | some data =>
         match
           (match assocFind remote_purpose data with
            | some url => extract_repo_name_from_url url
            | none => none) with
         | some r => some r
         | none => if fallback_purpose then allPurposeLoop data else none
       | none => none) with
    | some r => some r
    | none => if fallback_name then nameLoop remote_purpose remotes else none

/-- First successful extraction over a list of candidate URLs. -/
def firstExtract : List Str → Option (Str × Str)
  | [] => none
  | u :: us =>
    match extract_repo_name_from_url u with
    | some r => some r
    | none => firstExtract us

/-- The candidate URLs in the exact order the source tries them: the
exact `(remote, purpose)` entry; if fallback-by-purpose, every purpose
of the requested remote; if fallback-by-name, for each remote in table
order (the requested remote included) the requested purpose followed by
that remote's other purposes. -/
def codeCandidates (remotes : RemoteMap) (remote_name remote_purpose : Str)
    (fallback_name fallback_purpose : Bool) : List Str :=
  (match assocFind remote_name remotes with
   | some data =>
     (match assocFind remote_purpose data with
      | some url => [url]
      | none => [])
       ++ (if fallback_purpose then data.map Prod.snd else [])
   | none => [])
    ++ (if fallback_name then
          remotes.flatMap (fun nd =>
            (match assocFind remote_purpose nd.2 with
             | some url => [url]
             | none => [])
              ++ (nd.2.filter (fun pu => pu.1 ≠ remote_purpose)).map Prod.snd)
        else [])

/-- The candidate order claimed by the spec (reference definition built
from the claim's words, for comparison): the exact pair; then, if
fallback-by-purpose, every other purpose under the same remote; then,
if fallback-by-name, the requested purpose under every other remote;
then any other purpose under any other remote. -/
def specCandidates (remotes : RemoteMap) (remote_name remote_purpose : Str)
    (fallback_name fallback_purpose : Bool) : List Str :=
  (match assocFind remote_name remotes with
   | some data =>
     (match assocFind remote_purpose data with
      | some url => [url]
      | none => [])
       ++ (if fallback_purpose then
             (data.filter (fun pu => pu.1 ≠ remote_purpose)).map Prod.snd
           else [])
   | none => [])
    ++ (if fallback_name then
          ((remotes.filter (fun nd => nd.1 ≠ remote_name)).filterMap
              (fun nd => assocFind remote_purpose nd.2))
            ++ (remotes.filter (fun nd => nd.1 ≠ remote_name)).flatMap
                (fun nd => (nd.2.filter (fun pu => pu.1 ≠ remote_purpose)).map Prod.snd)
        else [])

/-! ## Commit-log decoder (`Git.get_commits`, git.py lines 418-462) -/

/-- The `marker_start` sentinel (git.py line 429). -/
def marker_start : Str := "<start new commit>".toList

/-- The `marker_commit_end` sentinel (git.py line 434). -/
def marker_commit_end : Str := "<end of commit message>".toList

/-- One decoded commit record (git.py lines 454-460). -/
structure CommitRecord : Type where
  hash : Str
  author : Str
  date : Str
  msg : Str
  files : List Str
deriving DecidableEq, Repr

/-- The log text the tool emits for one commit under
`--pretty=format:{marker_start}%n%H%n%an%n%ad%n%B%n{marker_commit_end}`
with `--name-only` (git.py lines 436-437): the format fields separated
by newlines, then the file list. -/
def encodeCommitLog (hash author date msg files : Str) : Str :=
  marker_start ++ '\n' :: (hash ++ '\n' :: (author ++ '\n' :: (date ++ '\n' ::
    (msg ++ '\n' :: (marker_commit_end ++ '\n' :: files)))))

/-- The capture of the first record by the pattern
`{start}\n(.*?)\n(.*?)\n(.*?)\n(.*?){end}\n(.*?)(?:\n\n|$)` under
`re.DOTALL` (git.py lines 443-446) followed by the per-field trimming of
the decoding loop (git.py lines 452-461).  Each lazy group captures up
to the first occurrence of the literal that follows it
(`splitOnceSub`); the file group runs to the first blank line, else to
the end of input.  This is the leftmost-shortest assignment, which is
the match the backtracking engine returns whenever it succeeds — in
particular on every encoded log. -/
def decodeFirstCommit (text : Str) : Option CommitRecord :=
  match splitOnceSub marker_start text with
  | none => none
  | some (_, rest0) =>
    match rest0 with
    | '\n' :: rest1 =>
      match splitOnceSub ['\n'] rest1 with
      | none => none
      | some (hash, rest2) =>
        match splitOnceSub ['\n'] rest2 with
        | none => none
        | some (author, rest3) =>
          match splitOnceSub ['\n'] rest3 with
          | none => none
          | some (date, rest4) =>
            match splitOnceSub marker_commit_end rest4 with
            | none => none
            | some (msgRaw, rest5) =>
              match rest5 with
              | '\n' :: rest6 =>
                let filesRaw :=
                  match splitOnceSub ['\n', '\n'] rest6 with
                  | some (a, _) => a
                  | none => rest6
                some
                  { hash := pyStrip hash
                    author := pyStrip author
                    date := pyStrip date
                    msg := pyStrip msgRaw
                    files := (splitOnChar '\n' (pyStrip filesRaw)).filter (fun l => l ≠ []) }
              | _ => none
    | _ => none

/-! ## Identity scope manager (`Git.__init__` lines 48-79, `Git.set_user`
lines 315-336 applied to configuration state, and
`Git._temporary_credentials` lines 716-747) -/

/-- The `user_type` of a config key. -/
inductive Role : Type
  | user : Role
  | author : Role
  | committer : Role
deriving DecidableEq, Repr

/-- A stored configuration key: role, scope tier, field (`name` or
`email`). -/
abbrev CfgKey := Role × Str × Str

/-- The git configuration store visible to one scope-qualified
`git config` read/write. -/
abbrev Cfg := List (CfgKey × Str)

/-- Read one configuration value. -/
def cfgGet (cfg : Cfg) (k : CfgKey) : Option Str :=
  match cfg with
  | [] => none
  | (k2, v) :: rest => if k2 = k then some v else cfgGet rest k

/-- Write one configuration value (replace or append). -/
def cfgSet (cfg : Cfg) (k : CfgKey) (v : Str) : Cfg :=
  match cfg with
  | [] => [(k, v)]
  | (k2, v2) :: rest => if k2 = k then (k2, v) :: rest else (k2, v2) :: cfgSet rest k v

/-- Remove one configuration value. -/
def cfgDel (cfg : Cfg) (k : CfgKey) : Cfg :=
  match cfg with
  | [] => []
  | (k2, v2) :: rest => if k2 = k then rest else (k2, v2) :: cfgDel rest k

/-- The state effect of one field of `set_user` on the configuration:
`None` unsets the key, a non-empty value writes it, the empty string
does nothing.  (Unsetting an absent key is modelled as a plain removal;
the scenarios below never unset an absent key.) -/
def applyField (cfg : Cfg) (role : Role) (scope field : Str) : Option Str → Cfg
  | none => cfgDel cfg (role, scope, field)
  | some v => if v = [] then cfg else cfgSet cfg (role, scope, field) v

/-- The state effect of `set_user(username, email, user_type, scope)`:
the `name` field is processed before the `email` field. -/
def set_user_apply (cfg : Cfg) (username email : Option Str) (role : Role) (scope : Str) :
    Cfg :=
  applyField (applyField cfg role scope "name".toList username) role scope "email".toList email

/-- Model of `get_user`: read back the two fields of a role at a
scope. -/
def get_user_read (cfg : Cfg) (role : Role) (scope : Str) : Option Str × Option Str :=
  (cfgGet cfg (role, scope, "name".toList), cfgGet cfg (role, scope, "email".toList))

/-- One role's temporary identity (git.py lines 48-79): the override
values, its scope, the persistent flag, and — for a non-persistent
override — the original `(name, email)` snapshot captured at
construction. -/
structure TempIdentity : Type where
  username : Str
  email : Str
  scope : Str
  persistent : Bool
  orig_username : Option Str
  orig_email : Option Str
deriving DecidableEq, Repr

/-- Role handling of `Git.__init__`: no override leaves the role
implicitly persistent (`none`); a persistent override is written
immediately; a non-persistent override captures the current values
first and writes nothing yet. -/
def initRole (cfg : Cfg) (role : Role) :
    Option (Str × Str × Str × Bool) → Option TempIdentity × Cfg
  | none => (none, cfg)
  | some (u, e, sc, pers) =>
    if pers then
      (some ⟨u, e, sc, true, none, none⟩, set_user_apply cfg (some u) (some e) role sc)
    else
      let orig := get_user_read cfg role sc
      (some ⟨u, e, sc, false, orig.1, orig.2⟩, cfg)

/-- The identity-relevant state of one `Git` instance. -/
structure GitIdState : Type where
  cfg : Cfg
  authorId : Option TempIdentity
  committerId : Option TempIdentity
deriving DecidableEq, Repr

/-- Model of `Git.__init__` (author handled before committer). -/
def initGit (cfg : Cfg) (author committer : Option (Str × Str × Str × Bool)) : GitIdState :=
  let ac := initRole cfg Role.author author
  let cc := initRole ac.2 Role.committer committer
  ⟨cc.2, ac.1, cc.1⟩

/-- Entry half of `_temporary_credentials` for one role (git.py lines
718-731): apply the override unless the role is persistent. -/
def applyOverride (cfg : Cfg) (role : Role) : Option TempIdentity → Cfg
  | some ti =>
    if ti.persistent then cfg
    else set_user_apply cfg (some ti.username) (some ti.email) role ti.scope
  | none => cfg

/-- Exit half of `_temporary_credentials` for one role (git.py lines
733-746): restore the original snapshot unless the role is
persistent. -/
def restoreOriginal (cfg : Cfg) (role : Role) : Option TempIdentity → Cfg
  | some ti =>
    if ti.persistent then cfg
    else set_user_apply cfg ti.orig_username ti.orig_email role ti.scope
  | none => cfg

/-- Model of `run_command(needs_credentials=True)` (git.py lines 86-97)
running an operation inside `with self._temporary_credentials()`.  The
context manager is a `@contextmanager` generator whose `yield` is not
wrapped in `try/finally`: when the operation raises, the exception
propagates at the yield point and the restore code after the yield never
runs, so the configuration is returned as the failing operation left
it. -/
def run_with_credentials (g : GitIdState) (op : Cfg → Cfg × Option GitError) :
    Cfg × Option GitError :=
  let cfg1 := applyOverride (applyOverride g.cfg Role.author g.authorId)
    Role.committer g.committerId
  match op cfg1 with
  | (cfg2, none) =>
    (restoreOriginal (restoreOriginal cfg2 Role.author g.authorId)
      Role.committer g.committerId, none)
  | (cfg2, some e) => (cfg2, some e)

/-! ## Theorems -/

lemma splitOnChar_ne_nil (sep : Char) (s : Str) : splitOnChar sep s ≠ [] := by
  cases s with
  | nil => simp [splitOnChar]
  | cons c rest =>
    simp only [splitOnChar]
    split
    · simp
    · split <;> simp

lemma assocFind_eq_none_of_forall_ne {α : Type} (k : Str) (m : List (Str × α))
    (h : ∀ p ∈ m, p.1 ≠ k) : assocFind k m = none := by
  induction m with
  | nil => rfl
  | cons p rest ih =>
    obtain ⟨k2, v⟩ := p
    simp only [assocFind]
    rw [if_neg (h (k2, v) (List.mem_cons_self _ _))]
    exact ih (fun q hq => h q (List.mem_cons_of_mem _ hq))

lemma assocFind_key_def_none (key : Str)
    (h : ∀ c, key.head? = some c → c ∉ mappedLetters) : assocFind key key_def = none := by
  apply assocFind_eq_none_of_forall_ne
  intro p hp
  simp only [key_def, List.mem_cons, List.not_mem_nil, or_false] at hp
  rcases hp with rfl | rfl | rfl | rfl | rfl | rfl | rfl | rfl
  all_goals (intro he; subst he; exact h _ rfl (by decide))

lemma changed_files_fold_ne_ok {change : Str} {lines : List Str}
    (hmem : change ∈ lines) (hbad : ∀ st, ∃ e, processChange st change = Except.error e) :
    ∀ st m, changed_files_fold st lines ≠ Except.ok m := by
  induction lines with
  | nil => cases hmem
  | cons a rest ih =>
    intro st m
    rcases List.mem_cons.mp hmem with rfl | h2
    · obtain ⟨e, he⟩ := hbad st
      simp [changed_files_fold, he]
    · cases hpc : processChange st a with
      | ok st2 =>
        simp only [changed_files_fold, hpc]
        exact ih h2 st2 m
      | error e => simp [changed_files_fold, hpc]

/-- Claim C2 (amended): a change line whose status field is empty or
begins with a letter outside the mapped set `{A,D,M,U,X,B,C,R}` makes
the decoder raise an unhandled `IndexError` / `ValueError` / `KeyError`
(as described by `statusErr`) — not `OperationError` — and is never
silently dropped or categorized: a whole input containing such a line
never decodes successfully. -/
theorem changed_files_unrecognized_status (out : ChangeMap) (change : Str)
    (h : ∀ c, (statusKey change).head? = some c → c ∉ mappedLetters) :
    processChange out change = Except.error (statusErr change) ∧
      statusErr change ≠ GitError.operationError ∧
      ∀ output m, change ∈ pySplitlines output → changed_files output ≠ Except.ok m := by
  have hkd : assocFind (statusKey change) key_def = none := assocFind_key_def_none _ h
  have hmain : ∀ o : ChangeMap, processChange o change = Except.error (statusErr change) := by
    intro o
    cases hsp : splitOnChar '\t' change with
    | nil => exact absurd hsp (splitOnChar_ne_nil _ _)
    | cons key paths =>
      have hsk : statusKey change = key := by simp [statusKey, hsp]
      rw [hsk] at hkd h
      simp only [processChange, statusErr, hsp, hsk, hkd]
      cases key with
      | nil => rfl
      | cons k0 krest =>
        have hk0 : assocFind [k0] key_def = none := by
          apply assocFind_key_def_none
          intro c hc
          cases hc
          exact h k0 rfl
        cases hpi : pyInt krest with
        | none => simp [hpi]
        | some sim => simp [hpi, hk0]
  refine ⟨hmain out, ?_, ?_⟩
  · unfold statusErr
    split
    · decide
    · split <;> decide
  · intro output m hmem
    exact changed_files_fold_ne_ok hmem (fun st => ⟨statusErr change, hmain st⟩) [] m

/-- Claim C2 counterexample: on the input line `Z<TAB>foo` (unrecognized
status letter `Z`), the decoder raises Python `ValueError` from
`int(key[1:])`, not `OperationError` as the claim states. -/
theorem changed_files_unrecognized_status_cex :
    changed_files "Z\tfoo".toList = Except.error GitError.valueError ∧
      GitError.valueError ≠ GitError.operationError := by decide

/-- Witness for `changed_files_unrecognized_status` at the line
`Z<TAB>foo`. -/
theorem changed_files_unrecognized_status_witness :
    processChange [] "Z\tfoo".toList = Except.error (statusErr "Z\tfoo".toList) :=
  (changed_files_unrecognized_status [] "Z\tfoo".toList (by decide)).1

lemma getList_setdefaultExtend (m : ChangeMap) (k : Str) (vs : List Str) (k2 : Str) :
    getList (setdefaultExtend m k vs) k2
      = if k2 = k then getList m k2 ++ vs else getList m k2 := by
  induction m with
  | nil =>
    by_cases h : k2 = k
    · subst h; simp [getList, setdefaultExtend, assocFind]
    · simp [getList, setdefaultExtend, assocFind, h, Ne.symm h]
  | cons p rest ih =>
    obtain ⟨ka, va⟩ := p
    simp only [setdefaultExtend]
    by_cases hka : ka = k
    · rw [if_pos hka]
      by_cases h2 : k2 = k
      · have hka2 : ka = k2 := hka.trans h2.symm
        simp [getList, assocFind, hka2, h2]
      · have hka2 : ¬ ka = k2 := fun he => h2 (he.symm.trans hka)
        simp [getList, assocFind, hka2, h2]
    · rw [if_neg hka]
      by_cases h2 : k2 = ka
      · have hk2k : ¬ k2 = k := fun he => hka (h2.symm.trans he)
        simp [getList, assocFind, h2.symm, hk2k]
      · have hka2 : ¬ ka = k2 := fun he => h2 he.symm
        simp only [getList, assocFind, if_neg hka2]
        simpa [getList] using ih

lemma assocFind_mem {α : Type} {k : Str} {m : List (Str × α)} {v : α}
    (h : assocFind k m = some v) : (k, v) ∈ m := by
  induction m with
  | nil => cases h
  | cons p rest ih =>
    obtain ⟨k2, v2⟩ := p
    simp only [assocFind] at h
    by_cases hk : k2 = k
    · rw [if_pos hk] at h
      injection h with hv
      subst hv; subst hk
      exact List.mem_cons_self _ _
    · rw [if_neg hk] at h
      exact List.mem_cons_of_mem _ (ih h)

lemma ne_of_getLast?_ne {l1 l2 : Str} (h : l1.getLast? ≠ l2.getLast?) : l1 ≠ l2 :=
  fun he => h (he ▸ rfl)

lemma getLast?_append_from (base : Str) : (base ++ "_from".toList).getLast? = some 'm' := by
  rw [@List.getLast?_append_of_ne_nil Char base "_from".toList (by decide)]
  decide

lemma getLast?_append_to (base : Str) : (base ++ "_to".toList).getLast? = some 'o' := by
  rw [@List.getLast?_append_of_ne_nil Char base "_to".toList (by decide)]
  decide

lemma key_def_cat_ne_paired {k cat : Str} (h : (k, cat) ∈ key_def) (base : Str) :
    cat ≠ base ++ "_from".toList ∧ cat ≠ base ++ "_to".toList := by
  simp only [key_def, List.mem_cons, List.not_mem_nil, or_false] at h
  rcases h with h | h | h | h | h | h | h | h
  all_goals
    rw [Prod.ext_iff] at h
    obtain ⟨-, h2⟩ := h
    subst h2
    exact ⟨ne_of_getLast?_ne (by rw [getLast?_append_from]; decide),
      ne_of_getLast?_ne (by rw [getLast?_append_to]; decide)⟩

lemma paired_from_ne_to (a b : Str) : a ++ "_from".toList ≠ b ++ "_to".toList :=
  ne_of_getLast?_ne (by rw [getLast?_append_from, getLast?_append_to]; decide)

lemma processChange_paired (base : Str) {st st2 : ChangeMap} {change : Str}
    (h : processChange st change = Except.ok st2) :
    getList st2 (base ++ "_from".toList)
        = getList st (base ++ "_from".toList) ++ ((crPairOne base change).map Prod.fst).toList ∧
      getList st2 (base ++ "_to".toList)
        = getList st (base ++ "_to".toList) ++ ((crPairOne base change).map Prod.snd).toList := by
  cases hsp : splitOnChar '\t' change with
  | nil => exact absurd hsp (splitOnChar_ne_nil _ _)
  | cons key paths =>
    simp only [processChange, hsp] at h
    simp only [crPairOne, hsp]
    cases hf : assocFind key key_def with
    | some cat =>
      rw [hf] at h
      injection h with h
      subst h
      have hmem := assocFind_mem hf
      obtain ⟨hne1, hne2⟩ := key_def_cat_ne_paired hmem base
      have g1 : getList (setdefaultExtend st cat paths) (base ++ "_from".toList)
          = getList st (base ++ "_from".toList) := by
        rw [getList_setdefaultExtend, if_neg (fun he => hne1 (he.symm))]
      have g2 : getList (setdefaultExtend st cat paths) (base ++ "_to".toList)
          = getList st (base ++ "_to".toList) := by
        rw [getList_setdefaultExtend, if_neg (fun he => hne2 (he.symm))]
      cases paths with
      | nil =>
        simp only [hf]
        exact ⟨by simpa using g1, by simpa using g2⟩
      | cons p0 pt =>
        cases pt with
        | nil =>
          simp only [hf]
          exact ⟨by simpa using g1, by simpa using g2⟩
        | cons p1 prest =>
          simp only [hf, Option.map_none, Option.toList_none, List.append_nil]
          exact ⟨by simpa using g1, by simpa using g2⟩
    | none =>
      cases key with
      | nil =>
        simp only [hf] at h
        exact Except.noConfusion h
      | cons k0 krest =>
        simp only [hf] at h
        cases hpi : pyInt krest with
        | none =>
          simp only [hpi] at h
          exact Except.noConfusion h
        | some sim =>
          simp only [hpi] at h
          cases hk0 : assocFind [k0] key_def with
          | none =>
            simp only [hk0] at h
            exact Except.noConfusion h
          | some b0 =>
            simp only [hk0] at h
            cases paths with
            | nil => cases h
            | cons p0 pt =>
              cases pt with
              | nil => cases h
              | cons p1 prest =>
                injection h with h
                subst h
                simp only [hpi, hk0]
                by_cases hb : (if sim ≠ 100 then b0 ++ "_modified".toList else b0) = base
                · rw [if_pos hb, hb]
                  constructor
                  · rw [setdefaultAppend, setdefaultAppend, getList_setdefaultExtend,
                      if_neg (paired_from_ne_to base base),
                      getList_setdefaultExtend, if_pos rfl]
                    simp [hf]
                  · rw [setdefaultAppend, setdefaultAppend, getList_setdefaultExtend,
                      if_pos rfl, getList_setdefaultExtend,
                      if_neg (fun he => paired_from_ne_to base base he.symm)]
                    simp [hf]
                · rw [if_neg hb]
                  constructor
                  · rw [setdefaultAppend, setdefaultAppend, getList_setdefaultExtend,
                      if_neg (fun he => paired_from_ne_to base _ he),
                      getList_setdefaultExtend,
                      if_neg (fun he => hb (List.append_cancel_right he).symm)]
                    simp [hf]
                  · rw [setdefaultAppend, setdefaultAppend, getList_setdefaultExtend,
                      if_neg (fun he => hb (List.append_cancel_right he).symm),
                      getList_setdefaultExtend,
                      if_neg (fun he => paired_from_ne_to _ base he.symm)]
                    simp [hf]

lemma changed_files_fold_paired (base : Str) :
    ∀ (lines : List Str) (st m : ChangeMap), changed_files_fold st lines = Except.ok m →
      getList m (base ++ "_from".toList)
          = getList st (base ++ "_from".toList) ++ (crPairs base lines).map Prod.fst ∧
        getList m (base ++ "_to".toList)
          = getList st (base ++ "_to".toList) ++ (crPairs base lines).map Prod.snd := by
  intro lines
  induction lines with
  | nil =>
    intro st m h
    simp only [changed_files_fold] at h
    injection h with h
    subst h
    simp [crPairs]
  | cons l rest ih =>
    intro st m h
    simp only [changed_files_fold] at h
    cases hpc : processChange st l with
    | error e =>
      rw [hpc] at h
      exact Except.noConfusion h
    | ok st1 =>
      rw [hpc] at h
      obtain ⟨h1, h2⟩ := processChange_paired base hpc
      obtain ⟨h3, h4⟩ := ih st1 m h
      constructor
      · rw [h3, h1]
        cases hcr : crPairOne base l with
        | none => simp [crPairs, List.filterMap_cons, hcr]
        | some pr => simp [crPairs, List.filterMap_cons, hcr]
      · rw [h4, h2]
        cases hcr : crPairOne base l with
        | none => simp [crPairs, List.filterMap_cons, hcr]
        | some pr => simp [crPairs, List.filterMap_cons, hcr]

/-- Claim C3 (confirmed): for every decoded change set, every paired
category `base` (in particular `copied`, `renamed`, `copied_modified`,
`renamed_modified`) satisfies: the `_from` list is exactly the list of
source paths and the `_to` list exactly the list of destination paths of
the `C`/`R`-status lines contributing to `base` (score 100 for the bare
category, other scores for the `_modified` variant — see `crPairOne`),
in input order, so element `i` of `_from` and element `i` of `_to` come
from the same input line and both lists have equal length. -/
theorem changed_files_paired_alignment (output : Str) (m : ChangeMap)
    (h : changed_files output = Except.ok m) (base : Str) :
    getList m (base ++ "_from".toList)
        = (crPairs base (pySplitlines output)).map Prod.fst ∧
      getList m (base ++ "_to".toList)
        = (crPairs base (pySplitlines output)).map Prod.snd ∧
      (getList m (base ++ "_from".toList)).length
        = (getList m (base ++ "_to".toList)).length := by
  obtain ⟨h1, h2⟩ := changed_files_fold_paired base (pySplitlines output) [] m h
  simp only [getList, assocFind, Option.getD_none, List.nil_append] at h1 h2
  refine ⟨h1, h2, ?_⟩
  simp only [getList]
  rw [h1, h2]
  simp

/-- Witness for `changed_files_paired_alignment` on the concrete input
`R100 a b` / `C50 c d`, at the paired category `renamed`. -/
theorem changed_files_paired_alignment_witness :
    getList
        [("renamed_from".toList, ["a".toList]), ("renamed_to".toList, ["b".toList]),
         ("copied_modified_from".toList, ["c".toList]),
         ("copied_modified_to".toList, ["d".toList])]
        ("renamed".toList ++ "_from".toList)
      = (crPairs "renamed".toList (pySplitlines "R100\ta\tb\nC50\tc\td".toList)).map Prod.fst ∧
      getList
        [("renamed_from".toList, ["a".toList]), ("renamed_to".toList, ["b".toList]),
         ("copied_modified_from".toList, ["c".toList]),
         ("copied_modified_to".toList, ["d".toList])]
        ("renamed".toList ++ "_to".toList)
      = (crPairs "renamed".toList (pySplitlines "R100\ta\tb\nC50\tc\td".toList)).map Prod.snd ∧
      (getList
        [("renamed_from".toList, ["a".toList]), ("renamed_to".toList, ["b".toList]),
         ("copied_modified_from".toList, ["c".toList]),
         ("copied_modified_to".toList, ["d".toList])]
        ("renamed".toList ++ "_from".toList)).length
      = (getList
        [("renamed_from".toList, ["a".toList]), ("renamed_to".toList, ["b".toList]),
         ("copied_modified_from".toList, ["c".toList]),
         ("copied_modified_to".toList, ["d".toList])]
        ("renamed".toList ++ "_to".toList)).length :=
  changed_files_paired_alignment "R100\ta\tb\nC50\tc\td".toList
    [("renamed_from".toList, ["a".toList]), ("renamed_to".toList, ["b".toList]),
     ("copied_modified_from".toList, ["c".toList]),
     ("copied_modified_to".toList, ["d".toList])]
    (by decide) "renamed".toList

lemma branch_foldl (lines : List Str) :
    ∀ a b : List Str, lines.foldl branchStep (a, b)
      = (a ++ currentEntries lines, b ++ otherEntries lines) := by
  induction lines with
  | nil => intro a b; simp [currentEntries, otherEntries]
  | cons l rest ih =>
    intro a b
    rw [List.foldl_cons]
    by_cases h1 : pyStrip l = []
    · simp only [branchStep, h1, if_pos rfl, if_true]
      rw [ih a b]
      simp [currentEntries, otherEntries, List.filterMap_cons, h1]
    · by_cases h2 : pyStarts "*".toList (pyStrip l) = true
      · have h2x : pyStarts ['*'] (pyStrip l) = true := h2
        simp only [branchStep, if_neg h1, h2, if_true]
        rw [ih (a ++ [pyStrip (pyRemovePre "*".toList (pyStrip l))]) b]
        simp [currentEntries, otherEntries, List.filterMap_cons, h1, h2x]
      · have h2x : ¬ pyStarts ['*'] (pyStrip l) = true := h2
        simp only [branchStep, if_neg h1, h2, if_false, Bool.false_eq_true]
        rw [ih a (b ++ [pyStrip l])]
        simp [currentEntries, otherEntries, List.filterMap_cons, h1, h2x]

/-- Claim C6 (confirmed): if more than one line of the branch listing is
marked current the decoder raises `OperationError`; with exactly one
marked line it returns that line (marker stripped) as the current branch
and the remaining non-empty lines, in input order, as the other
branches. -/
theorem get_all_branch_names_marked (output : Str) :
    ((currentEntries (splitOnChar '\n' output)).length > 1 →
      get_all_branch_names output = Except.error GitError.operationError) ∧
      ∀ c, currentEntries (splitOnChar '\n' output) = [c] →
        get_all_branch_names output = Except.ok (c, otherEntries (splitOnChar '\n' output)) := by
  have hf := branch_foldl (splitOnChar '\n' output) [] []
  simp only [List.nil_append] at hf
  constructor
  · intro hlen
    simp only [get_all_branch_names, hf]
    rw [if_pos hlen]
  · intro c hc
    simp only [get_all_branch_names, hf, hc]
    simp

/-- Witness for `get_all_branch_names_marked` on a listing with one
marked line and two unmarked lines. -/
theorem get_all_branch_names_marked_witness :
    get_all_branch_names "* main\n  dev\n  feat".toList
      = Except.ok ("main".toList, ["dev".toList, "feat".toList]) :=
  (((get_all_branch_names_marked "* main\n  dev\n  feat".toList).2
    "main".toList (by decide)).trans (by decide))

/-- Claim C9 (confirmed): when no line of the branch listing carries the
current-branch marker (detached head or empty output), the decoder does
not return a result and does not raise `OperationError`: it fails with
an unhandled `IndexError` from `branch_current[0]`. -/
theorem get_all_branch_names_no_marker (output : Str)
    (h : currentEntries (splitOnChar '\n' output) = []) :
    get_all_branch_names output = Except.error GitError.indexError ∧
      GitError.indexError ≠ GitError.operationError := by
  have hf := branch_foldl (splitOnChar '\n' output) [] []
  simp only [List.nil_append] at hf
  refine ⟨?_, by decide⟩
  simp only [get_all_branch_names, hf, h]
  simp

/-- Witness for `get_all_branch_names_no_marker` on a detached-style
listing with no marked line. -/
theorem get_all_branch_names_no_marker_witness :
    get_all_branch_names "  foo\n  bar".toList = Except.error GitError.indexError ∧
      GitError.indexError ≠ GitError.operationError :=
  get_all_branch_names_no_marker "  foo\n  bar".toList (by decide)

lemma assocFind_append_left {α : Type} {k : Str} {d : List (Str × α)} {v : α}
    (h : assocFind k d = some v) (e : List (Str × α)) : assocFind k (d ++ e) = some v := by
  induction d with
  | nil => cases h
  | cons q rest ih =>
    obtain ⟨k2, v2⟩ := q
    simp only [assocFind, List.cons_append] at h ⊢
    by_cases hk : k2 = k
    · rwa [if_pos hk] at h ⊢
    · rw [if_neg hk] at h ⊢
      exact ih h

lemma assocFind_append_self {p u : Str} (d : List (Str × Str)) :
    (assocFind p (d ++ [(p, u)])).isSome = true := by
  induction d with
  | nil => simp [assocFind]
  | cons q rest ih =>
    obtain ⟨k2, v2⟩ := q
    simp only [assocFind, List.cons_append]
    by_cases hk : k2 = p
    · rw [if_pos hk]; rfl
    · rwa [if_neg hk]

lemma memPair_insert_self (m : RemoteMap) (n p u : Str) :
    memPair (insertRemote m n p u) n p = true := by
  induction m with
  | nil => simp [memPair, insertRemote, assocFind]
  | cons q rest ih =>
    obtain ⟨n2, d⟩ := q
    simp only [insertRemote]
    by_cases hn : n2 = n
    · rw [if_pos hn]
      simp only [memPair, assocFind, if_pos hn]
      exact assocFind_append_self d
    · rw [if_neg hn]
      simp only [memPair, assocFind, if_neg hn]
      exact ih

lemma memPair_insert_mono {m : RemoteMap} {n2 p2 : Str} (n p u : Str)
    (h : memPair m n2 p2 = true) : memPair (insertRemote m n p u) n2 p2 = true := by
  induction m with
  | nil => simp [memPair, assocFind] at h
  | cons q rest ih =>
    obtain ⟨na, d⟩ := q
    simp only [insertRemote]
    by_cases hna : na = n
    · rw [if_pos hna]
      by_cases hq : na = n2
      · simp only [memPair, assocFind, if_pos hq] at h ⊢
        obtain ⟨v, hv⟩ := Option.isSome_iff_exists.mp h
        rw [assocFind_append_left hv]
        rfl
      · simp only [memPair, assocFind, if_neg hq] at h ⊢
        exact h
    · rw [if_neg hna]
      by_cases hq : na = n2
      · simp only [memPair, assocFind, if_pos hq] at h ⊢
        exact h
      · simp only [memPair, assocFind, if_neg hq] at h ⊢
        exact ih h

lemma get_remotes_fold_dup_mem {l2 : Str} {n p : Str} :
    ∀ (lines : List Str) (m : RemoteMap),
      (∀ l ∈ lines, ∃ a b c, pySplitWords l = [a, b, c]) →
      l2 ∈ lines → remoteKey l2 = some (n, p) → memPair m n p = true →
      get_remotes_fold m lines = Except.error GitError.operationError := by
  intro lines
  induction lines with
  | nil => intro m _ hmem; cases hmem
  | cons a rest ih =>
    intro m hwf hmem hkey hmp
    obtain ⟨na, ua, pa, hsp⟩ := hwf a (List.mem_cons_self _ _)
    simp only [get_remotes_fold, processRemote, hsp]
    by_cases hdup : memPair m na (purposeOf pa) = true
    · simp [hdup]
    · have hne : a ≠ l2 := by
        intro he
        subst he
        rw [remoteKey, hsp] at hkey
        injection hkey with hkey
        have h1 : na = n := congrArg Prod.fst hkey
        have h2 : purposeOf pa = p := congrArg Prod.snd hkey
        exact hdup (by rw [h1, h2]; exact hmp)
      have hmem2 : l2 ∈ rest := by
        rcases List.mem_cons.mp hmem with he | he
        · exact absurd he.symm hne
        · exact he
      simp only [Bool.not_eq_true] at hdup
      simp only [hdup, if_false, Bool.false_eq_true]
      exact ih (insertRemote m na (purposeOf pa) ua)
        (fun l hl => hwf l (List.mem_cons_of_mem _ hl)) hmem2 hkey
        (memPair_insert_mono _ _ _ hmp)

lemma get_remotes_fold_dup :
    ∀ (pre : List Str) (m : RemoteMap) (l1 : Str) (mid : List Str) (l2 : Str) (post : List Str)
      (n p : Str),
      (∀ l ∈ pre ++ l1 :: mid ++ l2 :: post, ∃ a b c, pySplitWords l = [a, b, c]) →
      remoteKey l1 = some (n, p) → remoteKey l2 = some (n, p) →
      get_remotes_fold m (pre ++ l1 :: mid ++ l2 :: post)
        = Except.error GitError.operationError := by
  intro pre
  induction pre with
  | nil =>
    intro m l1 mid l2 post n p hwf hk1 hk2
    obtain ⟨a1, b1, c1, hsp1⟩ := hwf l1 (by simp)
    rw [remoteKey, hsp1] at hk1
    injection hk1 with hk1
    have h1 : a1 = n := congrArg Prod.fst hk1
    have h2 : purposeOf c1 = p := congrArg Prod.snd hk1
    simp only [List.nil_append, get_remotes_fold, processRemote, hsp1]
    by_cases hdup : memPair m a1 (purposeOf c1) = true
    · simp [hdup]
    · simp only [Bool.not_eq_true] at hdup
      simp only [hdup, if_false, Bool.false_eq_true]
      apply get_remotes_fold_dup_mem (mid ++ l2 :: post) _
        (fun l hl => hwf l (by simp only [List.nil_append]; exact List.mem_cons_of_mem _ hl))
        (by simp) hk2
      rw [← h1, ← h2]
      exact memPair_insert_self m a1 (purposeOf c1) b1
  | cons a pre2 ih =>
    intro m l1 mid l2 post n p hwf hk1 hk2
    obtain ⟨aa, ba, ca, hspa⟩ := hwf a (by simp)
    simp only [List.cons_append, get_remotes_fold, processRemote, hspa]
    by_cases hdup : memPair m aa (purposeOf ca) = true
    · simp [hdup]
    · simp only [Bool.not_eq_true] at hdup
      simp only [hdup, if_false, Bool.false_eq_true]
      exact ih _ l1 mid l2 post n p
        (fun l hl => hwf l (by simp only [List.cons_append]; exact List.mem_cons_of_mem _ hl))
        hk1 hk2

/-- Claim C5 (confirmed): a remote-table input (all lines
whitespace-split into exactly three fields) in which two lines carry the
same `(remote name, purpose)` key makes the decoder raise
`OperationError` instead of overwriting the first URL; and the
well-formed four-line input with `origin`/`upstream` each carrying
`fetch` and `push` decodes to the two-key mapping with two purpose
entries each. -/
theorem get_remotes_duplicate (pre mid post : List Str) (l1 l2 : Str) (n p : Str)
    (hwf : ∀ l ∈ pre ++ l1 :: mid ++ l2 :: post, ∃ a b c, pySplitWords l = [a, b, c])
    (hk1 : remoteKey l1 = some (n, p)) (hk2 : remoteKey l2 = some (n, p)) :
    get_remotes_fold [] (pre ++ l1 :: mid ++ l2 :: post)
        = Except.error GitError.operationError ∧
      get_remotes
          "origin gu (fetch)\norigin gu (push)\nupstream hu (fetch)\nupstream hu (push)".toList
        = Except.ok
            [("origin".toList, [("fetch".toList, "gu".toList), ("push".toList, "gu".toList)]),
             ("upstream".toList,
              [("fetch".toList, "hu".toList), ("push".toList, "hu".toList)])] :=
  ⟨get_remotes_fold_dup pre [] l1 mid l2 post n p hwf hk1 hk2, by decide⟩

/-- Witness for `get_remotes_duplicate`: two `origin ... (fetch)`
lines. -/
theorem get_remotes_duplicate_witness :
    get_remotes_fold []
        ([] ++ "origin u (fetch)".toList :: [] ++ "origin v (fetch)".toList :: [])
        = Except.error GitError.operationError ∧
      get_remotes
          "origin gu (fetch)\norigin gu (push)\nupstream hu (fetch)\nupstream hu (push)".toList
        = Except.ok
            [("origin".toList, [("fetch".toList, "gu".toList), ("push".toList, "gu".toList)]),
             ("upstream".toList,
              [("fetch".toList, "hu".toList), ("push".toList, "hu".toList)])] :=
  get_remotes_duplicate [] [] [] "origin u (fetch)".toList "origin v (fetch)".toList
    "origin".toList "fetch".toList
    (by
      intro l hl
      have hl2 : l = "origin u (fetch)".toList ∨ l = "origin v (fetch)".toList := by
        simpa using hl
      rcases hl2 with rfl | rfl
      · exact ⟨"origin".toList, "u".toList, "(fetch)".toList, by decide⟩
      · exact ⟨"origin".toList, "v".toList, "(fetch)".toList, by decide⟩)
    (by decide) (by decide)

/-- Claim C10 (confirmed): the commands issued by `set_user` decompose
per field, and for each of name and email independently exactly one of
unset (`None`), write (non-empty string), or no-op (empty string) is
performed; in particular an empty-string field contributes no config
command at all. -/
theorem set_user_per_field (u e : Option Str) (ut : Str) (scope : Option Str) :
    set_user_cmds u e ut scope
      = (match u with
         | none => [configBase scope ++ ["--unset".toList, ut ++ ".name".toList]]
         | some v => if v = [] then [] else [configBase scope ++ [ut ++ ".name".toList, v]])
        ++ (match e with
            | none => [configBase scope ++ ["--unset".toList, ut ++ ".email".toList]]
            | some v =>
              if v = [] then [] else [configBase scope ++ [ut ++ ".email".toList, v]]) := by
  cases u with
  | none => cases e with
    | none => simp [set_user_cmds]
    | some v => by_cases hv : v = [] <;> simp [set_user_cmds, hv]
  | some w =>
    cases e with
    | none => by_cases hw : w = [] <;> simp [set_user_cmds, hw]
    | some v =>
      by_cases hw : w = [] <;> by_cases hv : v = [] <;> simp [set_user_cmds, hw, hv]

/-- Claim C7 (confirmed): with `stage="none"`, no staged changes and
`allow_empty=False` (and a non-empty message), the commit operation only
runs the staged-changes probe — the commit command is never invoked —
and returns no hash; and in general a successful commit call invokes the
commit command exactly when `allow_empty` is set or something is
staged. -/
theorem commit_nothing_staged (env : CommitEnv) (message : Str)
    (hmsg : message ≠ []) (hst : env.staged_changes = false) :
    commit env message Stage.none false false
        = Except.ok (none, [["diff".toList, "--quiet".toList, "--cached".toList]]) ∧
      ∀ (env2 : CommitEnv) (stage : Stage) (amend allow_empty : Bool)
        (h : Option Str) (tr : List Cmd),
        commit env2 message stage amend allow_empty = Except.ok (h, tr) →
        commitIssued tr = (allow_empty || env2.staged_changes) := by
  constructor
  · simp [commit, hmsg, hst]
  · intro env2 stage amend allow_empty h tr hc
    by_cases hae : amend = false ∧ message = []
    · simp [commit, hae] at hc
    · rw [commit.eq_def, if_neg hae] at hc
      cases hb : (allow_empty || env2.staged_changes) with
      | true =>
        rw [hb] at hc
        simp only [if_true] at hc
        injection hc with hc
        cases hc
        cases stage <;>
          simp [commitIssued, commit_cmd, List.any_append]
      | false =>
        rw [hb] at hc
        simp only [if_false, Bool.false_eq_true] at hc
        injection hc with hc
        cases hc
        cases hae2 : allow_empty with
        | true => simp [hae2] at hb
        | false =>
          cases stage <;>
            simp [commitIssued, List.any_append, hae2]

/-- Witness for `commit_nothing_staged` at a concrete environment. -/
theorem commit_nothing_staged_witness :
    commit ⟨false, "abc123".toList⟩ "msg".toList Stage.none false false
      = Except.ok (none, [["diff".toList, "--quiet".toList, "--cached".toList]]) :=
  (commit_nothing_staged ⟨false, "abc123".toList⟩ "msg".toList (by decide) rfl).1

lemma firstExtract_append (xs ys : List Str) :
    firstExtract (xs ++ ys)
      = match firstExtract xs with
        | some r => some r
        | none => firstExtract ys := by
  induction xs with
  | nil => simp [firstExtract]
  | cons u us ih =>
    simp only [List.cons_append, firstExtract]
    cases extract_repo_name_from_url u <;> simp [ih]

lemma allPurposeLoop_eq (data : List (Str × Str)) :
    allPurposeLoop data = firstExtract (data.map Prod.snd) := by
  induction data with
  | nil => rfl
  | cons pu rest ih =>
    obtain ⟨p, u⟩ := pu
    simp only [allPurposeLoop, List.map_cons, firstExtract]
    cases extract_repo_name_from_url u <;> simp [ih]

lemma purposeLoop_eq (rp : Str) (data : List (Str × Str)) :
    purposeLoop rp data
      = firstExtract ((data.filter (fun pu => pu.1 ≠ rp)).map Prod.snd) := by
  induction data with
  | nil => rfl
  | cons pu rest ih =>
    obtain ⟨p, u⟩ := pu
    by_cases hp : p ≠ rp
    · simp only [purposeLoop, if_pos hp]
      rw [List.filter_cons_of_pos (by simpa using hp)]
      simp only [List.map_cons, firstExtract]
      cases extract_repo_name_from_url u <;> simp [ih]
    · simp only [purposeLoop, if_neg hp]
      rw [List.filter_cons_of_neg (by simpa using hp)]
      exact ih

lemma nameLoop_eq (rp : Str) (remotes : RemoteMap) :
    nameLoop rp remotes
      = firstExtract (remotes.flatMap (fun nd =>
          (match assocFind rp nd.2 with
           | some url => [url]
           | none => [])
            ++ (nd.2.filter (fun pu => pu.1 ≠ rp)).map Prod.snd)) := by
  induction remotes with
  | nil => rfl
  | cons nd rest ih =>
    obtain ⟨n, data⟩ := nd
    simp only [nameLoop, List.flatMap_cons]
    cases hf : assocFind rp data with
    | some url =>
      simp only [hf, List.cons_append, firstExtract]
      cases he : extract_repo_name_from_url url with
      | some r => simp
      | none => simp [firstExtract_append, purposeLoop_eq, ih]
    | none =>
      simp only [hf, List.nil_append]
      simp [firstExtract_append, purposeLoop_eq, ih]

/-- Claim C8 (amended): the lookup equals first-successful-extraction
over the candidate URLs in the source order `codeCandidates`: the exact
`(remote, purpose)` entry; then, if fallback-by-purpose is allowed,
every purpose under the requested remote; then, if fallback-by-name is
allowed, for each remote in table order (the requested remote included)
the requested purpose followed by that remote's other purposes. -/
theorem get_remote_repo_name_order (remotes : RemoteMap) (rn rp : Str) (fbn fbp : Bool) :
    get_remote_repo_name remotes rn rp fbn fbp
      = firstExtract (codeCandidates remotes rn rp fbn fbp) := by
  by_cases hr : remotes = []
  · subst hr
    cases fbn <;> cases fbp <;>
      simp [get_remote_repo_name, codeCandidates, assocFind, firstExtract]
  · rw [get_remote_repo_name, if_neg hr]
    simp only [codeCandidates]
    cases hn : assocFind rn remotes with
    | none =>
      simp only [hn, List.nil_append]
      cases fbn <;> simp [nameLoop_eq, firstExtract]
    | some data =>
      simp only [hn]
      cases hp : assocFind rp data with
      | some url =>
        simp only [hp]
        cases he : extract_repo_name_from_url url with
        | some r =>
          cases fbn <;> cases fbp <;>
            simp [he, firstExtract, firstExtract_append]
        | none =>
          cases fbn <;> cases fbp <;>
            simp [he, firstExtract, firstExtract_append, allPurposeLoop_eq, nameLoop_eq] <;>
            (try (cases hfe : firstExtract (List.map Prod.snd data) <;> simp [hfe]))
      | none =>
        simp only [hp, List.nil_append]
        cases fbn <;> cases fbp <;>
          simp [firstExtract, firstExtract_append, allPurposeLoop_eq, nameLoop_eq] <;>
          (try (cases hfe : firstExtract (List.map Prod.snd data) <;> simp [hfe]))

/-- Claim C8 counterexample: with remotes `r1 {fetch: github.com/o1/a}`
and `r2 {push: github.com/o2/b}` and requested pair `(origin, push)`
(both fallbacks allowed), the source returns `(o1, a)` — it tries the
non-requested `fetch` URL of `r1` before the requested `push` URL of
`r2` — while the order stated by the claim (`specCandidates`) would
yield `(o2, b)`. -/
theorem get_remote_repo_name_order_cex :
    get_remote_repo_name
        [("r1".toList, [("fetch".toList, "https://github.com/o1/a".toList)]),
         ("r2".toList, [("push".toList, "https://github.com/o2/b".toList)])]
        "origin".toList "push".toList true true
      = some ("o1".toList, "a".toList) ∧
      firstExtract (specCandidates
        [("r1".toList, [("fetch".toList, "https://github.com/o1/a".toList)]),
         ("r2".toList, [("push".toList, "https://github.com/o2/b".toList)])]
        "origin".toList "push".toList true true)
      = some ("o2".toList, "b".toList) ∧
      ("o1".toList, "a".toList) ≠ ("o2".toList, "b".toList) := by decide

lemma splitOnceSub_here {pat l : Str} (h : pat.isPrefixOf l = true) :
    splitOnceSub pat l = some ([], l.drop pat.length) := by
  cases l with
  | nil =>
    have hp : pat = [] := by simpa using List.isPrefixOf_iff_prefix.mp h
    subst hp
    rfl
  | cons c rest =>
    simp only [splitOnceSub, if_pos h]

lemma splitOnceSub_char (c : Char) (y : Str) :
    ∀ x : Str, c ∉ x → splitOnceSub [c] (x ++ c :: y) = some (x, y) := by
  intro x
  induction x with
  | nil =>
    intro _
    simp only [List.nil_append]
    rw [splitOnceSub_here (by simp [List.isPrefixOf_iff_prefix])]
    simp
  | cons a x2 ih =>
    intro hx
    have hca : c ≠ a := fun he => hx (by rw [he]; exact List.mem_cons_self _ _)
    have hnp : ¬ (([c] : Str).isPrefixOf (a :: (x2 ++ c :: y)) = true) := by
      simp [List.isPrefixOf_iff_prefix, List.cons_prefix_cons, hca]
    simp only [List.cons_append, splitOnceSub, List.append_eq]
    rw [if_neg hnp, ih (fun hm => hx (List.mem_cons_of_mem _ hm))]

lemma not_infix_concat {pat m : Str} {b : Char} (hpat : pat ≠ []) (hb : b ∉ pat)
    (h : ¬ pat <:+: m) : ¬ pat <:+: (m ++ [b]) := by
  intro hinf
  obtain ⟨s, t, heq⟩ := hinf
  cases t with
  | nil =>
    rw [List.append_nil] at heq
    have hlast : (s ++ pat).getLast? = pat.getLast? := List.getLast?_append_of_ne_nil s hpat
    have h1 : pat.getLast? = some b := by
      rw [← hlast, heq, List.getLast?_concat]
    exact hb (List.mem_of_getLast?_eq_some h1)
  | cons t0 t1 =>
    have ht : (t0 :: t1 : Str) ≠ [] := by simp
    have hsplit : (t0 :: t1 : Str).dropLast ++ [(t0 :: t1 : Str).getLast ht] = t0 :: t1 :=
      List.dropLast_concat_getLast ht
    have heq2 : (s ++ pat ++ (t0 :: t1 : Str).dropLast) ++ [(t0 :: t1 : Str).getLast ht]
        = m ++ [b] :=
      calc (s ++ pat ++ (t0 :: t1 : Str).dropLast) ++ [(t0 :: t1 : Str).getLast ht]
          = (s ++ pat) ++ ((t0 :: t1 : Str).dropLast ++ [(t0 :: t1 : Str).getLast ht]) := by
            simp [List.append_assoc]
        _ = (s ++ pat) ++ (t0 :: t1) := by rw [hsplit]
        _ = m ++ [b] := heq
    have hm : s ++ pat ++ (t0 :: t1 : Str).dropLast = m :=
      (List.append_inj' heq2 rfl).1
    exact h ⟨s, (t0 :: t1 : Str).dropLast, hm⟩

lemma splitOnceSub_boundary (pat : Str) (b : Char) (y : Str)
    (hpat : pat ≠ []) (hb : b ∉ pat) :
    ∀ x : Str, ¬ pat <:+: (x ++ [b]) →
      splitOnceSub pat (x ++ b :: (pat ++ y)) = some (x ++ [b], y) := by
  intro x
  induction x with
  | nil =>
    intro _
    simp only [List.nil_append]
    have hnp : ¬ (pat.isPrefixOf (b :: (pat ++ y)) = true) := by
      intro hp
      have hpre := List.isPrefixOf_iff_prefix.mp hp
      cases pat with
      | nil => exact hpat rfl
      | cons p0 ps =>
        obtain ⟨t, ht⟩ := hpre
        rw [List.cons_append] at ht
        injection ht with h1 _
        exact hb (by rw [h1]; exact List.mem_cons_self _ _)
    have hpp : pat.isPrefixOf (pat ++ y) = true :=
      List.isPrefixOf_iff_prefix.mpr (List.prefix_append _ _)
    simp only [splitOnceSub, List.append_eq]
    rw [if_neg hnp, splitOnceSub_here hpp, List.drop_left]
  | cons a x2 ih =>
    intro hx
    have hx2 : ¬ pat <:+: (x2 ++ [b]) := fun hinf => hx (List.infix_cons hinf)
    have hnp : ¬ (pat.isPrefixOf (a :: (x2 ++ b :: (pat ++ y))) = true) := by
      intro hp
      have hpre := List.isPrefixOf_iff_prefix.mp hp
      have hfull : a :: (x2 ++ b :: (pat ++ y)) = ((a :: x2) ++ [b]) ++ (pat ++ y) := by
        simp
      rw [hfull] at hpre
      rcases le_total pat.length ((a :: x2) ++ [b]).length with hle | hle
      · exact hx (List.IsPrefix.isInfix
          (List.prefix_of_prefix_length_le hpre (List.prefix_append _ _) hle))
      · exact hb (List.IsPrefix.mem (by simp)
          (List.prefix_of_prefix_length_le (List.prefix_append _ _) hpre hle))
    simp only [List.cons_append, splitOnceSub, List.append_eq]
    rw [if_neg hnp, ih hx2]

lemma pyStrip_concat_space (m : Str) {c : Char} (hc : isPySpace c = true) :
    pyStrip (m ++ [c]) = pyStrip m := by
  unfold pyStrip
  rw [List.dropWhile_append]
  by_cases hm : (m.dropWhile isPySpace).isEmpty
  · rw [if_pos hm]
    have h1 : List.dropWhile isPySpace [c] = [] := by
      simp [List.dropWhile_cons, hc]
    have h2 : m.dropWhile isPySpace = [] := by simpa [List.isEmpty_iff] using hm
    rw [h1, h2]
  · rw [if_neg hm]
    rw [List.reverse_append]
    simp [List.dropWhile_cons, hc]

/-- Claim C4 (amended): for every commit message that does not contain
the end-of-message sentinel (and newline-free hash, author and date
fields), rendering into the sentinel-delimited log format and decoding
yields the original message trimmed of leading and trailing whitespace
only; internal blank lines are preserved in the decoded `msg` field. -/
theorem get_commits_roundtrip (hash author date msg files : Str)
    (hh : '\n' ∉ hash) (ha : '\n' ∉ author) (hd : '\n' ∉ date)
    (hm : ¬ marker_commit_end <:+: msg) :
    (decodeFirstCommit (encodeCommitLog hash author date msg files)).map CommitRecord.msg
      = some (pyStrip msg) := by
  have h0 : splitOnceSub marker_start (encodeCommitLog hash author date msg files)
      = some ([], '\n' :: (hash ++ '\n' :: (author ++ '\n' :: (date ++ '\n' ::
          (msg ++ '\n' :: (marker_commit_end ++ '\n' :: files)))))) := by
    rw [encodeCommitLog,
      splitOnceSub_here (List.isPrefixOf_iff_prefix.mpr (List.prefix_append _ _)),
      List.drop_left]
  have h1 : splitOnceSub ['\n']
      (hash ++ '\n' :: (author ++ '\n' :: (date ++ '\n' ::
        (msg ++ '\n' :: (marker_commit_end ++ '\n' :: files)))))
      = some (hash, author ++ '\n' :: (date ++ '\n' ::
          (msg ++ '\n' :: (marker_commit_end ++ '\n' :: files)))) :=
    splitOnceSub_char '\n' _ hash hh
  have h2 : splitOnceSub ['\n']
      (author ++ '\n' :: (date ++ '\n' :: (msg ++ '\n' :: (marker_commit_end ++ '\n' :: files))))
      = some (author, date ++ '\n' :: (msg ++ '\n' :: (marker_commit_end ++ '\n' :: files))) :=
    splitOnceSub_char '\n' _ author ha
  have h3 : splitOnceSub ['\n']
      (date ++ '\n' :: (msg ++ '\n' :: (marker_commit_end ++ '\n' :: files)))
      = some (date, msg ++ '\n' :: (marker_commit_end ++ '\n' :: files)) :=
    splitOnceSub_char '\n' _ date hd
  have h4 : splitOnceSub marker_commit_end
      (msg ++ '\n' :: (marker_commit_end ++ '\n' :: files))
      = some (msg ++ ['\n'], '\n' :: files) :=
    splitOnceSub_boundary marker_commit_end '\n' ('\n' :: files) (by decide) (by decide) msg
      (not_infix_concat (by decide) (by decide) hm)
  simp only [decodeFirstCommit, h0, h1, h2, h3, h4]
  rw [pyStrip_concat_space msg (by decide)]
  rfl

/-- Claim C4 counterexample: a message containing the end-of-message
sentinel does not round-trip: the decoder cuts the message at the first
occurrence of the sentinel, returning `x` instead of the whole
(already-trimmed) message. -/
theorem get_commits_roundtrip_cex :
    (decodeFirstCommit (encodeCommitLog "h".toList "an".toList "ad".toList
        "x\n<end of commit message>\ny".toList "f1".toList)).map CommitRecord.msg
      = some "x".toList ∧
      some ("x".toList : Str) ≠ some (pyStrip "x\n<end of commit message>\ny".toList) := by
  decide

/-- Witness for `get_commits_roundtrip` at a multi-line message with an
internal blank line. -/
theorem get_commits_roundtrip_witness :
    (decodeFirstCommit (encodeCommitLog "h1".toList "an".toList "ad".toList
        "  line1\n\nline3 ".toList "f1\nf2".toList)).map CommitRecord.msg
      = some (pyStrip "  line1\n\nline3 ".toList) :=
  get_commits_roundtrip "h1".toList "an".toList "ad".toList "  line1\n\nline3 ".toList
    "f1\nf2".toList (by decide) (by decide) (by decide) (by decide)

/-- Claim C1 (code bug): with the original author identity
`(Alice, alicemail)` at the local scope and a non-persistent author
override `(Bob, bobmail)`, a failing credential-needing operation leaves
the override in the configuration — the generator-based scope skips the
restore on an exception — whereas a succeeding operation restores the
original snapshot, contradicting the specified guarantee that the
snapshot is restored on abnormal exit exactly as on normal exit. -/
theorem temporary_credentials_error_keeps_override :
    cfgGet
        (run_with_credentials
          (initGit
            [((Role.author, "local".toList, "name".toList), "Alice".toList),
             ((Role.author, "local".toList, "email".toList), "alicemail".toList)]
            (some ("Bob".toList, "bobmail".toList, "local".toList, false)) none)
          (fun cfg => (cfg, some GitError.execError))).1
        (Role.author, "local".toList, "name".toList)
      = some "Bob".toList ∧
      cfgGet
        (run_with_credentials
          (initGit
            [((Role.author, "local".toList, "name".toList), "Alice".toList),
             ((Role.author, "local".toList, "email".toList), "alicemail".toList)]
            (some ("Bob".toList, "bobmail".toList, "local".toList, false)) none)
          (fun cfg => (cfg, none))).1
        (Role.author, "local".toList, "name".toList)
      = some "Alice".toList ∧
      some "Bob".toList ≠ some "Alice".toList := by
  decide
